import Mathlib

/-!
Verification of the GD32E23x SPI peripheral driver (`cpu/gd32e23x/periph/spi.c`)
against its natural-language specification.

The driver is embedded shallowly: 32-bit C arithmetic becomes `Nat` arithmetic
with explicit `% 2 ^ 32` where the C code can overflow, the per-bus clock cache
becomes an explicit state record, the chip-select handling of
`spi_transfer_bytes` becomes a state transformer on an explicit pin/enable
state, the DMA transfer becomes its event trace, and the polled transfer loops
become recursive functions over a model of the full-duplex receive path.
Division by zero (undefined behaviour in C) is modelled by `Option`.
-/

/-- Bit position of the BR field in CTL0 (`BR_SHIFT`). -/
def BR_SHIFT : Nat := 3

/-- Largest representable divider selector (`BR_MAX`). -/
def BR_MAX : Nat := 7

/-- Fixed-point shift used by the divider computation (`SPI_APB_CLOCK_SHIFT`). -/
def SPI_APB_CLOCK_SHIFT : Nat := 4

/-- Fixed-point multiplier, `1 << SPI_APB_CLOCK_SHIFT` (`SPI_APB_CLOCK_MULT`). -/
def SPI_APB_CLOCK_MULT : Nat := 2 ^ SPI_APB_CLOCK_SHIFT

/-- Modulus of the 32-bit unsigned arithmetic used by the driver. -/
def U32 : Nat := 2 ^ 32

/-- Fuel-bounded halving loop computing the index of the most significant set
bit; with fuel at least `n` it computes `Nat.log2 n`. -/
def msbAux : Nat → Nat → Nat
  | 0, _ => 0
  | fuel + 1, n => if 2 ≤ n then msbAux fuel (n / 2) + 1 else 0

/-- RIOT's `bitarithm_msb`: the number (index) of the highest set bit of its
argument (0 for inputs 0 and 1). -/
def bitarithm_msb (n : Nat) : Nat := msbAux n n

/-- Fixed-point ratio computed by `_get_clkdiv`:
`uint32_t div = (bus_clock << SPI_APB_CLOCK_SHIFT) / (2 * clock);`
in 32-bit arithmetic.  (`Nat` division by zero yields `0`; the division-by-zero
fault of the C code is accounted for separately in `_get_clkdiv`.) -/
def spi_fixdiv (bus_clock clock : Nat) : Nat :=
  (((bus_clock % U32) * SPI_APB_CLOCK_MULT) % U32) / ((2 * (clock % U32)) % U32)

/-- Arithmetic of `_get_clkdiv` (spi.c lines 85-104) for a nonzero divisor:
return 0 when the ratio is at most the fixed-point multiplier, otherwise take
the most significant bit (`bitarithm_msb`, i.e. `Nat.log2`), compensate the
fixed-point shift, round up when the ratio is not a power of two, and clamp to
`BR_MAX`. -/
def _get_clkdiv_core (bus_clock clock : Nat) : Nat :=
  let div := spi_fixdiv bus_clock clock
  if div ≤ SPI_APB_CLOCK_MULT then 0
  else
    let rounded_div := bitarithm_msb div - SPI_APB_CLOCK_SHIFT
    let rounded_div := if div &&& (div - 1) ≠ 0 then rounded_div + 1 else rounded_div
    if rounded_div > BR_MAX then BR_MAX else rounded_div

/-- `_get_clkdiv`: `none` models the C division-by-zero fault, which happens
exactly when `2 * clock` is zero in 32-bit arithmetic (the code has no guard for
`clock = 0`); otherwise the computed selector. -/
def _get_clkdiv (bus_clock clock : Nat) : Option Nat :=
  if (2 * (clock % U32)) % U32 = 0 then none
  else some (_get_clkdiv_core bus_clock clock)

/-- When neither 32-bit multiplication overflows, the fixed-point ratio is the
plain rational ratio rounded down. -/
theorem spi_fixdiv_eq (B f : Nat) (hB : B * SPI_APB_CLOCK_MULT < U32)
    (hf32 : 2 * f < U32) :
    spi_fixdiv B f = (B * SPI_APB_CLOCK_MULT) / (2 * f) := by
  have hBU : B < U32 := by
    have h1 : B ≤ B * SPI_APB_CLOCK_MULT := by
      have : (0:Nat) < SPI_APB_CLOCK_MULT := by decide
      exact Nat.le_mul_of_pos_right B this
    omega
  have hfU : f < U32 := by omega
  unfold spi_fixdiv
  rw [Nat.mod_eq_of_lt hBU, Nat.mod_eq_of_lt hfU, Nat.mod_eq_of_lt hB,
    Nat.mod_eq_of_lt hf32]

/-- With enough fuel, `msbAux` computes `Nat.log2`. -/
theorem msbAux_eq_log2 : ∀ fuel n, n ≤ fuel → msbAux fuel n = Nat.log2 n := by
  intro fuel
  induction fuel with
  | zero =>
    intro n hn
    have : n = 0 := Nat.le_zero.mp hn
    subst this
    rw [Nat.log2]
    simp [msbAux]
  | succ k ih =>
    intro n hn
    rw [Nat.log2]
    by_cases h2 : 2 ≤ n
    · have hdiv : n / 2 ≤ k := by omega
      simp only [msbAux, if_pos h2, ih (n / 2) hdiv]
    · simp only [msbAux, if_neg h2]

/-- `bitarithm_msb` agrees with `Nat.log2`. -/
theorem bitarithm_msb_eq_log2 (n : Nat) : bitarithm_msb n = Nat.log2 n :=
  msbAux_eq_log2 n n (Nat.le_refl n)

/-- Every positive number whose `x &&& (x - 1)` test clears is an exact power
of two (the power-of-two test used by `_get_clkdiv`). -/
theorem pow_two_of_land_pred_zero :
    ∀ d, 0 < d → d &&& (d - 1) = 0 → ∃ m, d = 2 ^ m := by
  intro d
  induction d using Nat.strong_induction_on with
  | _ d ih =>
    intro hd hland
    by_cases h1 : d = 1
    · exact ⟨0, by simpa using h1⟩
    · have h2 : 2 ≤ d := by omega
      have hhalf : d / 2 &&& (d - 1) / 2 = 0 := by
        rw [← Nat.and_div_two, hland]
      by_cases hpar : d % 2 = 0
      · have hd1 : (d - 1) / 2 = d / 2 - 1 := by omega
        rw [hd1] at hhalf
        obtain ⟨m, hm⟩ := ih (d / 2) (by omega) (by omega) hhalf
        refine ⟨m + 1, ?_⟩
        rw [pow_succ]
        omega
      · have hd1 : (d - 1) / 2 = d / 2 := by omega
        rw [hd1, Nat.and_self] at hhalf
        omega

/-- Undershoot bound used in the round-up branch of the divider computation:
whenever the fixed-point ratio is below `2 ^ (m + 1)`, dividing the bus clock
by `2 ^ (m - 2)` cannot exceed the request. -/
theorem clkdiv_round_up_le (B f m : Nat) (hf : 0 < f) (h4 : 4 ≤ m)
    (hlt : B * 16 / (2 * f) < 2 ^ (m + 1)) :
    B / 2 ^ (m - 2) ≤ f := by
  have h2f : 0 < 2 * f := by omega
  have hB16 : B * 16 < 2 ^ (m + 1) * (2 * f) :=
    (Nat.div_lt_iff_lt_mul h2f).mp hlt
  have hpow : 2 ^ (m + 1) * 2 = 2 ^ (m - 2) * 16 := by
    have hm2 : m - 2 + 4 = m + 2 := by omega
    calc 2 ^ (m + 1) * 2 = 2 ^ (m + 2) := by rw [← pow_succ]
      _ = 2 ^ (m - 2) * 2 ^ 4 := by rw [← pow_add, hm2]
      _ = 2 ^ (m - 2) * 16 := by norm_num
  have hBlt : B < 2 ^ (m - 2) * f := by
    have : B * 16 < 2 ^ (m - 2) * f * 16 := by
      calc B * 16 < 2 ^ (m + 1) * (2 * f) := hB16
        _ = 2 ^ (m + 1) * 2 * f := by ring
        _ = 2 ^ (m - 2) * 16 * f := by rw [hpow]
        _ = 2 ^ (m - 2) * f * 16 := by ring
    exact Nat.lt_of_mul_lt_mul_right this
  have hpos : 0 < 2 ^ (m - 2) := Nat.pos_pow_of_pos _ (by omega)
  refine Nat.le_of_lt ((Nat.div_lt_iff_lt_mul hpos).mpr ?_)
  rw [Nat.mul_comm f (2 ^ (m - 2))]
  exact hBlt

/-- Exact-power-of-two case of the divider computation: when the fixed-point
division is exact and yields `2 ^ m`, dividing the bus clock by `2 ^ (m - 3)`
gives back exactly the requested clock. -/
theorem clkdiv_exact_pow_le (B f m : Nat) (hf : 0 < f) (h5 : 5 ≤ m)
    (hdvd : (2 * f) ∣ (B * 16)) (heq : B * 16 / (2 * f) = 2 ^ m) :
    B / 2 ^ (m - 3) ≤ f := by
  have h2f : 0 < 2 * f := by omega
  have hmul : B * 16 = 2 ^ m * (2 * f) := by
    have := Nat.div_mul_cancel hdvd
    rw [heq] at this
    omega
  have hpow : 2 ^ m * 2 = 2 ^ (m - 3) * 16 := by
    have hm3 : m - 3 + 4 = m + 1 := by omega
    calc 2 ^ m * 2 = 2 ^ (m + 1) := by rw [← pow_succ]
      _ = 2 ^ (m - 3) * 2 ^ 4 := by rw [← pow_add, hm3]
      _ = 2 ^ (m - 3) * 16 := by norm_num
  have hBeq : B = f * 2 ^ (m - 3) := by
    have h16 : B * 16 = f * 2 ^ (m - 3) * 16 := by
      calc B * 16 = 2 ^ m * (2 * f) := hmul
        _ = 2 ^ m * 2 * f := by ring
        _ = 2 ^ (m - 3) * 16 * f := by rw [hpow]
        _ = f * 2 ^ (m - 3) * 16 := by ring
    omega
  have hpos : 0 < 2 ^ (m - 3) := Nat.pos_pow_of_pos _ (by omega)
  rw [hBeq, Nat.mul_div_cancel f hpos]

/-- C1 (amended): for a nonzero requested clock, with no 32-bit overflow in
the fixed-point computation, whenever the fixed-point ratio is at most the
smallest representable division factor the selector is 0 (the actual clock may
then exceed the request); otherwise, provided the ratio stays within the
clampable range (at most `2 ^ (BR_MAX + SPI_APB_CLOCK_SHIFT)`) and either the
scaled ratio is not an exact power of two or the fixed-point division is
exact, the actual clock `B / 2 ^ (selector + 1)` is at most the requested
clock `f`. -/
theorem C1_amended_actual_clock_le (B f : Nat)
    (hf : f ≠ 0)
    (hB : B * SPI_APB_CLOCK_MULT < U32)
    (hf32 : 2 * f < U32)
    (hclamp : spi_fixdiv B f ≤ 2 ^ (BR_MAX + SPI_APB_CLOCK_SHIFT))
    (hexact : spi_fixdiv B f &&& (spi_fixdiv B f - 1) ≠ 0 ∨
      (2 * f) ∣ (B * SPI_APB_CLOCK_MULT)) :
    (spi_fixdiv B f ≤ SPI_APB_CLOCK_MULT → _get_clkdiv B f = some 0) ∧
    (SPI_APB_CLOCK_MULT < spi_fixdiv B f →
      ∀ r, _get_clkdiv B f = some r → B / 2 ^ (r + 1) ≤ f) := by
  have hMULT : SPI_APB_CLOCK_MULT = 16 := by decide
  have hBR : BR_MAX = 7 := rfl
  have hshift : SPI_APB_CLOCK_SHIFT = 4 := rfl
  have hfU : f < U32 := by omega
  have hga : _get_clkdiv B f = some (_get_clkdiv_core B f) := by
    unfold _get_clkdiv
    rw [Nat.mod_eq_of_lt hfU, Nat.mod_eq_of_lt hf32]
    have hne : ¬ (2 * f = 0) := by omega
    rw [if_neg hne]
  have hcore_eq : _get_clkdiv_core B f =
      if spi_fixdiv B f ≤ SPI_APB_CLOCK_MULT then 0
      else
        if (if spi_fixdiv B f &&& (spi_fixdiv B f - 1) ≠ 0
            then bitarithm_msb (spi_fixdiv B f) - SPI_APB_CLOCK_SHIFT + 1
            else bitarithm_msb (spi_fixdiv B f) - SPI_APB_CLOCK_SHIFT) > BR_MAX
        then BR_MAX
        else (if spi_fixdiv B f &&& (spi_fixdiv B f - 1) ≠ 0
              then bitarithm_msb (spi_fixdiv B f) - SPI_APB_CLOCK_SHIFT + 1
              else bitarithm_msb (spi_fixdiv B f) - SPI_APB_CLOCK_SHIFT) := rfl
  refine ⟨fun hle => ?_, fun hgt r hr => ?_⟩
  · rw [hga, hcore_eq, if_pos hle]
  · rw [hga] at hr
    have hrcore : _get_clkdiv_core B f = r := Option.some.inj hr
    have hdeq : spi_fixdiv B f = B * SPI_APB_CLOCK_MULT / (2 * f) :=
      spi_fixdiv_eq B f hB hf32
    have hd0 : spi_fixdiv B f ≠ 0 := by omega
    have hd16 : 16 < spi_fixdiv B f := by omega
    have hd2048 : spi_fixdiv B f ≤ 2048 := by
      have h2 : (2 : Nat) ^ (BR_MAX + SPI_APB_CLOCK_SHIFT) = 2048 := by decide
      omega
    have hnle : ¬ spi_fixdiv B f ≤ SPI_APB_CLOCK_MULT := by omega
    by_cases hand : spi_fixdiv B f &&& (spi_fixdiv B f - 1) ≠ 0
    · -- round-up branch: the selector is msb - shift + 1 and never clamps here
      have hne2048 : spi_fixdiv B f ≠ 2048 := by
        intro habs
        rw [habs] at hand
        exact hand (by decide)
      have hmlt : Nat.log2 (spi_fixdiv B f) < 11 :=
        (Nat.log2_lt hd0).mpr (by omega)
      have hmge : 4 ≤ Nat.log2 (spi_fixdiv B f) :=
        (Nat.le_log2 hd0).mpr (by omega)
      have hclneg : ¬ (Nat.log2 (spi_fixdiv B f) - 4 + 1 > BR_MAX) := by omega
      have hrval : r = Nat.log2 (spi_fixdiv B f) - 4 + 1 := by
        rw [← hrcore, hcore_eq, if_neg hnle, if_pos hand,
          bitarithm_msb_eq_log2, hshift, if_neg hclneg]
      have hexp : r + 1 = Nat.log2 (spi_fixdiv B f) - 2 := by omega
      rw [hexp]
      apply clkdiv_round_up_le B f (Nat.log2 (spi_fixdiv B f)) (by omega) hmge
      rw [← hMULT, ← hdeq]
      exact Nat.lt_log2_self
    · -- exact power of two with exact division
      have heq0 : spi_fixdiv B f &&& (spi_fixdiv B f - 1) = 0 := by
        by_contra h
        exact hand h
      have hdvd : (2 * f) ∣ (B * SPI_APB_CLOCK_MULT) := by
        rcases hexact with h | h
        · exact absurd h hand
        · exact h
      obtain ⟨m, hm⟩ := pow_two_of_land_pred_zero (spi_fixdiv B f) (by omega) heq0
      have hlog : Nat.log2 (spi_fixdiv B f) = m := by
        rw [hm]; exact Nat.log2_two_pow
      have hm5 : 5 ≤ m := by
        have h4 : (2 : Nat) ^ 4 < 2 ^ m := by
          rw [← hm]; omega
        have := (Nat.pow_lt_pow_iff_right (by omega : 1 < 2)).mp h4
        omega
      have hm11 : m ≤ 11 := by
        have h11 : (2 : Nat) ^ m ≤ 2 ^ 11 := by
          rw [← hm]; omega
        exact (Nat.pow_le_pow_iff_right (by omega : 1 < 2)).mp h11
      have hclneg : ¬ (m - 4 > BR_MAX) := by omega
      have hrval : r = m - 4 := by
        rw [← hrcore, hcore_eq, if_neg hnle, if_neg hand,
          bitarithm_msb_eq_log2, hshift, hlog, if_neg hclneg]
      have hexp : r + 1 = m - 3 := by omega
      rw [hexp]
      apply clkdiv_exact_pow_le B f m (by omega) hm5 (by rwa [hMULT] at hdvd)
      rw [← hm, hdeq, hMULT]

/-- C1 (amended) witness at the 48 MHz / 8 MHz scenario: ratio 48, not a power
of two, no clamping, so the actual clock 6 MHz is at most the requested 8 MHz. -/
theorem C1_amended_actual_clock_le_witness :
    48000000 / 2 ^ (2 + 1) ≤ 8000000 :=
  (C1_amended_actual_clock_le 48000000 8000000 (by decide) (by decide) (by decide)
      (by decide) (Or.inl (by decide))).2 (by decide) 2 (by decide)

/-- C7: with a 48 MHz bus clock and an 8 MHz requested clock the divider
calculator returns selector 2 (division factor `2^3 = 8`), for an actual clock
of 6 MHz, which is at most the requested 8 MHz. -/
theorem C7_scenario_48MHz_8MHz :
    _get_clkdiv 48000000 8000000 = some 2 ∧
    48000000 / 2 ^ (2 + 1) = 6000000 ∧ 6000000 ≤ 8000000 := by
  refine ⟨?_, by decide, by decide⟩
  decide

/-- C1 (counterexample): the claimed guarantee "whenever the ratio is above the
smallest representable division factor, the actual clock `B / 2^(selector+1)`
is at most the requested clock `f`" fails on the code at two concrete inputs:
with `B = 48 MHz` and `f = 1 kHz` the selector clamps to `BR_MAX = 7` and the
actual clock is 187.5 kHz; with `B = 408` and `f = 100` the fixed-point ratio
`32` looks like an exact power of two so no round-up happens, yet the actual
clock `408 / 4 = 102` exceeds the requested `100`. -/
theorem C1_claim_counterexample :
    (SPI_APB_CLOCK_MULT < spi_fixdiv 48000000 1000 ∧
      _get_clkdiv 48000000 1000 = some 7 ∧
      1000 < 48000000 / 2 ^ (7 + 1)) ∧
    (SPI_APB_CLOCK_MULT < spi_fixdiv 408 100 ∧
      _get_clkdiv 408 100 = some 1 ∧
      100 < 408 / 2 ^ (1 + 1)) := by
  refine ⟨⟨by decide, ?_, by decide⟩, ⟨by decide, ?_, by decide⟩⟩ <;> decide

/-- Per-bus clock configuration cache of the driver: `clocks[bus]` (last
requested clock, 0 initially meaning unset) and `dividers[bus]` (cached
selector). -/
structure SpiCache where
  clock : Nat
  divider : Nat
  deriving DecidableEq, Repr

/-- Clock-caching step of `spi_acquire` (spi.c lines 206-209):
`if (clk != clocks[bus]) { dividers[bus] = _get_clkdiv(...); clocks[bus] = clk; }`;
`none` propagates the division-by-zero fault of `_get_clkdiv`. -/
def spi_acquire_cache (bus_clock clk : Nat) (s : SpiCache) : Option SpiCache :=
  if clk = s.clock then some s
  else (_get_clkdiv bus_clock clk).map (fun d => SpiCache.mk clk d)

/-- Cache invariant from the spec: whenever the cached clock is nonzero, the
cached divider is the one the calculator yields for that clock. -/
def cacheInv (bus_clock : Nat) (s : SpiCache) : Prop :=
  s.clock ≠ 0 → _get_clkdiv bus_clock s.clock = some s.divider

/-- C5: the acquire step preserves the cache invariant, recomputes and updates
both cached fields together, and leaves the cache untouched when the newly
requested clock equals the cached one. -/
theorem C5_cache_invariant (bus_clock clk : Nat) (s s' : SpiCache)
    (hinv : cacheInv bus_clock s)
    (hstep : spi_acquire_cache bus_clock clk s = some s') :
    cacheInv bus_clock s' ∧ (clk = s.clock → s' = s) := by
  unfold spi_acquire_cache at hstep
  by_cases heq : clk = s.clock
  · rw [if_pos heq] at hstep
    have : s = s' := Option.some.inj hstep
    subst this
    exact ⟨hinv, fun _ => rfl⟩
  · rw [if_neg heq] at hstep
    refine ⟨?_, fun h => absurd h heq⟩
    cases hg : _get_clkdiv bus_clock clk with
    | none => rw [hg] at hstep; simp [Option.map] at hstep
    | some d =>
      rw [hg] at hstep
      simp only [Option.map] at hstep
      have hs' : SpiCache.mk clk d = s' := Option.some.inj hstep
      intro _
      rw [← hs']
      simpa using hg

/-- C5 witness: a concrete acquire on an unset cache at 48 MHz bus clock and
8 MHz requested clock establishes the invariant. -/
theorem C5_cache_invariant_witness :
    cacheInv 48000000 (SpiCache.mk 8000000 2) :=
  (C5_cache_invariant 48000000 8000000 (SpiCache.mk 0 0) (SpiCache.mk 8000000 2)
    (fun h => absurd rfl h) (by decide)).1

/-- C6: the divider computation has no hidden state: repeating the acquire
step with the same requested clock reproduces the same cache, so the cached
divider value never changes on a second acquire with an identical clock. -/
theorem C6_idempotent (bus_clock clk : Nat) (s s' : SpiCache)
    (h : spi_acquire_cache bus_clock clk s = some s') :
    spi_acquire_cache bus_clock clk s' = some s' := by
  unfold spi_acquire_cache at h ⊢
  by_cases heq : clk = s.clock
  · rw [if_pos heq] at h
    have hss : s = s' := Option.some.inj h
    subst hss
    rw [if_pos heq]
  · rw [if_neg heq] at h
    cases hg : _get_clkdiv bus_clock clk with
    | none => rw [hg] at h; simp [Option.map] at h
    | some d =>
      rw [hg] at h
      simp only [Option.map] at h
      have hs' : SpiCache.mk clk d = s' := Option.some.inj h
      have hclk : clk = s'.clock := by rw [← hs']
      rw [if_pos hclk]

/-- C6 witness: the second acquire at 8 MHz leaves the cache `(8 MHz, 2)`
unchanged. -/
theorem C6_idempotent_witness :
    spi_acquire_cache 48000000 8000000 (SpiCache.mk 8000000 2) =
      some (SpiCache.mk 8000000 2) :=
  C6_idempotent 48000000 8000000 (SpiCache.mk 0 0) (SpiCache.mk 8000000 2)
    (by decide)

/-- C10: the divider computation divides by `2 * clock` with no guard against
a zero requested clock, so any acquire with requested clock 0 that misses the
cache (cached clock nonzero) hits the division-by-zero fault. -/
theorem C10_div_by_zero (bus_clock : Nat) (s : SpiCache) (h : s.clock ≠ 0) :
    _get_clkdiv bus_clock 0 = none ∧
    spi_acquire_cache bus_clock 0 s = none := by
  have hg : _get_clkdiv bus_clock 0 = none := by
    unfold _get_clkdiv
    rw [if_pos (by decide)]
  refine ⟨hg, ?_⟩
  unfold spi_acquire_cache
  rw [if_neg (fun habs => h habs.symm), hg]
  rfl

/-- C10 witness: after an acquire cached 8 MHz, a requested clock of 0 faults. -/
theorem C10_div_by_zero_witness :
    spi_acquire_cache 48000000 0 (SpiCache.mk 8000000 2) = none :=
  (C10_div_by_zero 48000000 (SpiCache.mk 8000000 2) (by decide)).2

/-- Modelled from the spec: the GPIO collaborator's undefined-pin sentinel
(`GPIO_UNDEF`, the header defining it is not in src/). -/
def GPIO_UNDEF : Nat := 0xffffffff

/-- Modelled from the spec: hardware chip-select sentinel (`SPI_HWCS_MASK`,
the header defining it is not in src/): a reserved designator value, distinct
from every usable GPIO identifier, whose mask structure `spi_init_cs` tests
with `(cs & SPI_HWCS_MASK) == SPI_HWCS_MASK` and `cs & ~SPI_HWCS_MASK`. -/
def SPI_HWCS_MASK : Nat := 0xffffff00

/-- Modelled from the spec: the GPIO collaborator's validity check
(`gpio_is_valid`): every designator other than the undefined sentinel is a
valid GPIO identifier. -/
def gpio_is_valid (pin : Nat) : Bool := pin != GPIO_UNDEF

/-- Chip-select-relevant state of one bus: the peripheral-enable bit `SPIEN`
of CTL0 (which drives the hardware NSS line low while set) and the output
levels of the GPIO pins (`true` = high = deasserted for an active-low CS). -/
structure CsState where
  spien : Bool
  level : Nat → Bool

/-- Modelled from the spec: `gpio_set` drives a GPIO output high. -/
def gpio_set (pin : Nat) (lv : Nat → Bool) : Nat → Bool :=
  fun p => if p = pin then true else lv p

/-- Modelled from the spec: `gpio_clear` drives a GPIO output low. -/
def gpio_clear (pin : Nat) (lv : Nat → Bool) : Nat → Bool :=
  fun p => if p = pin then false else lv p

/-- Chip-select effect of `spi_transfer_bytes` (spi.c lines 358-388): assert
by setting SPIEN (pulls the hardware CS low) and, for a software CS, driving
the GPIO low; after the byte exchange, unless `cont` is set (and the
designator is valid), deassert by clearing SPIEN and, for a software CS,
driving the GPIO high. -/
def spi_transfer_bytes_cs (cs : Nat) (cont : Bool) (s : CsState) : CsState :=
  let s1 : CsState := CsState.mk true
    (if cs != SPI_HWCS_MASK && gpio_is_valid cs then gpio_clear cs s.level
     else s.level)
  if !cont && gpio_is_valid cs then
    CsState.mk false
      (if cs != SPI_HWCS_MASK then gpio_set cs s1.level else s1.level)
  else s1

/-- A sequence of `n` transfers with the continuation flag set. -/
def spi_transfer_seq (cs : Nat) : Nat → CsState → CsState
  | 0, s => s
  | n + 1, s => spi_transfer_seq cs n (spi_transfer_bytes_cs cs true s)

/-- The designated chip-select line: the hardware NSS line (driven low while
SPIEN is set) for the hardware designator, the designated GPIO otherwise. -/
def lineAsserted (cs : Nat) (s : CsState) : Bool :=
  if cs = SPI_HWCS_MASK then s.spien else !(s.level cs)

/-- A transfer with the continuation flag leaves the line asserted. -/
theorem lineAsserted_of_cont (cs : Nat) (h : gpio_is_valid cs = true)
    (s : CsState) : lineAsserted cs (spi_transfer_bytes_cs cs true s) = true := by
  unfold spi_transfer_bytes_cs lineAsserted
  simp only [Bool.not_true, Bool.false_and, Bool.false_eq_true, if_false]
  by_cases hm : cs = SPI_HWCS_MASK
  · rw [if_pos hm]
  · rw [if_neg hm]
    have hb : (cs != SPI_HWCS_MASK) = true := by
      simpa using hm
    rw [hb, h]
    simp [gpio_clear]

/-- A transfer without the continuation flag leaves the line deasserted. -/
theorem lineDeasserted_of_stop (cs : Nat) (h : gpio_is_valid cs = true)
    (s : CsState) : lineAsserted cs (spi_transfer_bytes_cs cs false s) = false := by
  unfold spi_transfer_bytes_cs lineAsserted
  simp only [Bool.not_false, Bool.true_and, h, if_true]
  by_cases hm : cs = SPI_HWCS_MASK
  · rw [if_pos hm]
  · rw [if_neg hm]
    have hb : (cs != SPI_HWCS_MASK) = true := by
      simpa using hm
    rw [hb]
    simp [gpio_set]

/-- Every state in a continuation sequence keeps the line asserted. -/
theorem lineAsserted_seq (cs : Nat) (h : gpio_is_valid cs = true) :
    ∀ n s, lineAsserted cs (spi_transfer_seq cs (n + 1) s) = true := by
  intro n
  induction n with
  | zero => intro s; exact lineAsserted_of_cont cs h s
  | succ k ih =>
    intro s
    exact ih (spi_transfer_bytes_cs cs true s)

/-- C2: for a valid designator, a transfer with `continue_flag = false` leaves
the designated chip-select line deasserted; a sequence of `n ≥ 1` transfers
with the continuation flag keeps the line asserted after each of them, and a
final transfer without the flag deasserts it. -/
theorem C2_cs_framing (cs : Nat) (h : gpio_is_valid cs = true) (s : CsState)
    (n : Nat) (hn : 1 ≤ n) :
    lineAsserted cs (spi_transfer_bytes_cs cs false s) = false ∧
    lineAsserted cs (spi_transfer_seq cs n s) = true ∧
    lineAsserted cs (spi_transfer_bytes_cs cs false (spi_transfer_seq cs n s)) =
      false := by
  refine ⟨lineDeasserted_of_stop cs h s, ?_, ?_⟩
  · obtain ⟨k, rfl⟩ : ∃ k, n = k + 1 := ⟨n - 1, by omega⟩
    exact lineAsserted_seq cs h k s
  · exact lineDeasserted_of_stop cs h _

/-- C2 witness: on GPIO designator 5 starting from a deasserted idle state,
two chained transfers keep the line low and the closing transfer releases it. -/
theorem C2_cs_framing_witness :
    lineAsserted 5 (spi_transfer_bytes_cs 5 false (CsState.mk false (fun _ => true))) = false ∧
    lineAsserted 5 (spi_transfer_seq 5 2 (CsState.mk false (fun _ => true))) = true ∧
    lineAsserted 5 (spi_transfer_bytes_cs 5 false
      (spi_transfer_seq 5 2 (CsState.mk false (fun _ => true)))) = false :=
  C2_cs_framing 5 (by decide) (CsState.mk false (fun _ => true)) 2 (by decide)

/-- Observable actions of `_transfer_dma` on the two DMA channels: preparing
(with the caller's buffer or the scratch byte), starting, awaiting completion,
the conditional stop, and the final transmit-empty/not-busy drain wait
(`_wait_for_end`). -/
inductive DmaEvent where
  | prepareTx (fromOutBuf : Bool)
  | prepareRx (toInBuf : Bool)
  | startTx
  | startRx
  | waitTx
  | waitRx
  | stopTx
  | stopRx
  | drainWait
  deriving DecidableEq, Repr

/-- Event trace of `_transfer_dma` (spi.c lines 284-314): prepare the transmit
channel (caller buffer, else scratch), prepare the receive channel (caller
buffer, else scratch), start receive then transmit, wait on receive then
transmit, optionally stop both (`DMA_CCR_EN` builds), then `_wait_for_end`. -/
def _transfer_dma (hasOut hasIn dmaStop : Bool) : List DmaEvent :=
  [DmaEvent.prepareTx hasOut, DmaEvent.prepareRx hasIn,
   DmaEvent.startRx, DmaEvent.startTx,
   DmaEvent.waitRx, DmaEvent.waitTx]
  ++ (if dmaStop then [DmaEvent.stopRx, DmaEvent.stopTx] else [])
  ++ [DmaEvent.drainWait]

/-- C3 (counterexample): the claim that the receive channel is prepared before
the transmit channel is false on the code: in the trace of a full-duplex
transfer the transmit prepare comes first. -/
theorem C3_claim_counterexample :
    ¬ (_transfer_dma true true false).indexOf (DmaEvent.prepareRx true) <
      (_transfer_dma true true false).indexOf (DmaEvent.prepareTx true) := by
  decide

/-- C3 (amended): in every DMA transfer the transmit channel is prepared
first, then the receive channel; the receive channel is started before the
transmit channel; both completions are then awaited (receive before
transmit); and the transmit-empty/not-busy drain wait is the last action
before the transfer returns. -/
theorem C3_amended_dma_order (hasOut hasIn dmaStop : Bool) :
    (_transfer_dma hasOut hasIn dmaStop).indexOf (DmaEvent.prepareTx hasOut) <
      (_transfer_dma hasOut hasIn dmaStop).indexOf (DmaEvent.prepareRx hasIn) ∧
    (_transfer_dma hasOut hasIn dmaStop).indexOf (DmaEvent.prepareRx hasIn) <
      (_transfer_dma hasOut hasIn dmaStop).indexOf DmaEvent.startRx ∧
    (_transfer_dma hasOut hasIn dmaStop).indexOf DmaEvent.startRx <
      (_transfer_dma hasOut hasIn dmaStop).indexOf DmaEvent.startTx ∧
    (_transfer_dma hasOut hasIn dmaStop).indexOf DmaEvent.startTx <
      (_transfer_dma hasOut hasIn dmaStop).indexOf DmaEvent.waitRx ∧
    (_transfer_dma hasOut hasIn dmaStop).indexOf DmaEvent.waitRx <
      (_transfer_dma hasOut hasIn dmaStop).indexOf DmaEvent.waitTx ∧
    (_transfer_dma hasOut hasIn dmaStop).getLast? = some DmaEvent.drainWait := by
  cases hasOut <;> cases hasIn <;> cases dmaStop <;> decide

/-- Full-duplex hardware response: writing a byte to the DATA register shifts
it out and the peer's response enters the receive path. -/
def spiWriteData (peer : Nat → Nat) (b : Nat) (rx : List Nat) : List Nat :=
  rx ++ [peer b]

/-- Receive drain loop `while (STAT & RBNE) { (void)DATA; }` at the end of the
output-only branch: reads and discards until the receive path is empty. -/
def drainRx : List Nat → List Nat
  | [] => []
  | _ :: t => drainRx t

/-- Output-only branch of `_transfer_no_dma` (spi.c lines 326-337): write each
byte when the transmit buffer empties, then wait for the end and drain every
byte that arrived in the receive path. -/
def txOnly (peer out : Nat → Nat) (len : Nat) (rx : List Nat) : List Nat :=
  drainRx ((List.range len).foldl (fun r i => spiWriteData peer (out i) r) rx)

/-- Input-only branch of `_transfer_no_dma` (spi.c lines 338-345): write a
dummy 0 byte to generate clock edges, then read the answering byte. -/
def rxOnly (peer : Nat → Nat) : Nat → List Nat → List Nat × List Nat
  | 0, rx => ([], rx)
  | k + 1, rx =>
    let r := spiWriteData peer 0 rx
    let rest := rxOnly peer k r.tail
    (r.headD 0 :: rest.1, rest.2)

/-- Full-duplex branch of `_transfer_no_dma` (spi.c lines 346-353): write
`out[i]`, then read into `in[i]`, one byte at a time. -/
def duplexLoop (peer out : Nat → Nat) : Nat → Nat → List Nat → List Nat × List Nat
  | _, 0, rx => ([], rx)
  | i, k + 1, rx =>
    let r := spiWriteData peer (out i) rx
    let rest := duplexLoop peer out (i + 1) k r.tail
    (r.headD 0 :: rest.1, rest.2)

/-- `_transfer_no_dma` (spi.c lines 317-356): dispatch on which buffers the
caller supplied; returns the bytes delivered to the input buffer (when
requested) and the final contents of the receive path. -/
def _transfer_no_dma (peer : Nat → Nat) (out : Option (Nat → Nat))
    (hasIn : Bool) (len : Nat) (rx : List Nat) : Option (List Nat) × List Nat :=
  if !hasIn then
    (none, txOnly peer (out.getD (fun _ => 0)) len rx)
  else
    match out with
    | none =>
      let p := rxOnly peer len rx
      (some p.1, p.2)
    | some o =>
      let p := duplexLoop peer o 0 len rx
      (some p.1, p.2)

/-- The drain loop always empties the receive path. -/
theorem drainRx_eq_nil : ∀ rx, drainRx rx = [] := by
  intro rx
  induction rx with
  | nil => rfl
  | cons b t ih => simpa [drainRx] using ih

/-- The input-only loop, started with an empty receive path, leaves it empty. -/
theorem rxOnly_rx_eq_nil (peer : Nat → Nat) :
    ∀ k, (rxOnly peer k []).2 = [] := by
  intro k
  induction k with
  | zero => rfl
  | succ n ih => simpa [rxOnly, spiWriteData] using ih

/-- The full-duplex loop, started with an empty receive path, leaves it
empty. -/
theorem duplexLoop_rx_eq_nil (peer o : Nat → Nat) :
    ∀ k i, (duplexLoop peer o i k []).2 = [] := by
  intro k
  induction k with
  | zero => intro i; rfl
  | succ n ih => intro i; simpa [duplexLoop, spiWriteData] using ih (i + 1)

/-- C8: an output-only polled transfer drains every byte that arrived in the
receive path before returning, whatever was pending beforehand; and neither
the input-only nor the full-duplex path leaves a stale byte behind when the
receive path was clean on entry, so no following transfer sees a corrupted
first byte. -/
theorem C8_no_stale_rx (peer o : Nat → Nat) (len : Nat) (rx : List Nat) :
    (_transfer_no_dma peer (some o) false len rx).2 = [] ∧
    (_transfer_no_dma peer none true len []).2 = [] ∧
    (_transfer_no_dma peer (some o) true len []).2 = [] := by
  refine ⟨?_, ?_, ?_⟩
  · simpa [_transfer_no_dma, txOnly] using
      drainRx_eq_nil ((List.range len).foldl (fun r i => spiWriteData peer (o i) r) rx)
  · simpa [_transfer_no_dma] using rxOnly_rx_eq_nil peer len
  · simpa [_transfer_no_dma] using duplexLoop_rx_eq_nil peer o len 0

/-- Result codes of `spi_init_cs` (`SPI_OK`, `SPI_NODEV`, `SPI_NOCS`). -/
inductive SpiInitResult where
  | ok
  | nodev
  | nocs
  deriving DecidableEq, Repr

/-- `spi_init_cs` (spi.c lines 143-166), parameterised by the board
configuration (`SPI_NUMOF` and the per-bus dedicated CS pin of
`spi_config`).  `cs & ~SPI_HWCS_MASK` in 32-bit arithmetic is `cs &&& 0xff`.
The `gpio_init`/`gpio_init_af`/`gpio_set` side effects do not influence the
result code and are omitted. -/
def spi_init_cs (numof : Nat) (cs_pin : Nat → Nat) (bus cs : Nat) :
    SpiInitResult :=
  if numof ≤ bus then SpiInitResult.nodev
  else if !(gpio_is_valid cs) ||
      ((cs &&& SPI_HWCS_MASK == SPI_HWCS_MASK) && (cs &&& 0xff != 0)) then
    SpiInitResult.nocs
  else if cs = SPI_HWCS_MASK then
    if !(gpio_is_valid (cs_pin bus)) then SpiInitResult.nocs
    else SpiInitResult.ok
  else SpiInitResult.ok

/-- A 32-bit designator that carries all the sentinel mask bits and none of
the low bits is the sentinel itself. -/
theorem eq_hwcs_of_low_bits_zero (cs : Nat) (h32 : cs < U32)
    (hm : cs &&& SPI_HWCS_MASK = SPI_HWCS_MASK) (hl : cs &&& 0xff = 0) :
    cs = SPI_HWCS_MASK := by
  have hle : SPI_HWCS_MASK ≤ cs := by
    have h := Nat.and_le_left (n := cs) (m := SPI_HWCS_MASK)
    omega
  have h8 := Nat.and_pow_two_sub_one_eq_mod cs 8
  norm_num at h8
  have h256 : cs % 256 = 0 := by omega
  have hmv : SPI_HWCS_MASK = 4294967040 := rfl
  have hU : U32 = 4294967296 := by norm_num [U32]
  omega

/-- The invalid-designator classes of the spec's words: a designator that is
not a valid GPIO identifier, or one that combines the hardware-mask sentinel
with any other bits. -/
def specBadDesignator (cs : Nat) : Prop :=
  gpio_is_valid cs = false ∨
    (cs &&& SPI_HWCS_MASK = SPI_HWCS_MASK ∧ cs ≠ SPI_HWCS_MASK)

instance specBadDesignator.instDec (cs : Nat) : Decidable (specBadDesignator cs) := by
  unfold specBadDesignator
  exact inferInstance

/-- The designator test of `spi_init_cs` matches the spec's classes. -/
theorem badDesignator_iff (cs : Nat) (h32 : cs < U32) :
    (!(gpio_is_valid cs) ||
      ((cs &&& SPI_HWCS_MASK == SPI_HWCS_MASK) && (cs &&& 0xff != 0))) = true ↔
    specBadDesignator cs := by
  unfold specBadDesignator
  simp only [Bool.or_eq_true, Bool.not_eq_true', Bool.and_eq_true, beq_iff_eq,
    bne_iff_ne, ne_eq]
  constructor
  · rintro (h | ⟨h1, h2⟩)
    · exact Or.inl h
    · refine Or.inr ⟨h1, fun habs => h2 ?_⟩
      rw [habs]
      decide
  · rintro (h | ⟨h1, h2⟩)
    · exact Or.inl h
    · refine Or.inr ⟨h1, fun habs => h2 ?_⟩
      exact eq_hwcs_of_low_bits_zero cs h32 h1 habs

/-- C4: `spi_init_cs` returns `NODEV` exactly when the bus index is out of
range; `NOCS` exactly when (the bus is in range and) the designator is
invalid in the spec's sense — not a valid GPIO identifier, or the sentinel
combined with other bits — or is the sentinel while the bus has no valid
dedicated CS pin; and `OK` in every remaining case. -/
theorem C4_init_cs_result (numof : Nat) (cs_pin : Nat → Nat) (bus cs : Nat)
    (h32 : cs < U32) :
    (spi_init_cs numof cs_pin bus cs = SpiInitResult.nodev ↔ numof ≤ bus) ∧
    (spi_init_cs numof cs_pin bus cs = SpiInitResult.nocs ↔
      bus < numof ∧ (specBadDesignator cs ∨
        (cs = SPI_HWCS_MASK ∧ gpio_is_valid (cs_pin bus) = false))) ∧
    (spi_init_cs numof cs_pin bus cs = SpiInitResult.ok ↔
      bus < numof ∧ ¬ specBadDesignator cs ∧
        (cs = SPI_HWCS_MASK → gpio_is_valid (cs_pin bus) = true)) := by
  unfold spi_init_cs
  by_cases h1 : numof ≤ bus
  · have h1' : ¬ bus < numof := by omega
    rw [if_pos h1]
    simp [h1, h1']
  · have hlt : bus < numof := by omega
    rw [if_neg h1]
    by_cases h2 : (!(gpio_is_valid cs) ||
        ((cs &&& SPI_HWCS_MASK == SPI_HWCS_MASK) && (cs &&& 0xff != 0))) = true
    · have hb : specBadDesignator cs := (badDesignator_iff cs h32).mp h2
      rw [if_pos h2]
      simp [h1, hlt, hb]
    · have hnb : ¬ specBadDesignator cs :=
        fun hb => h2 ((badDesignator_iff cs h32).mpr hb)
      rw [if_neg h2]
      by_cases h3 : cs = SPI_HWCS_MASK
      · subst h3
        rw [if_pos rfl]
        by_cases h4 : gpio_is_valid (cs_pin bus) = true
        · have h4' : ¬ ((!(gpio_is_valid (cs_pin bus))) = true) := by
            rw [h4]; decide
          rw [if_neg h4']
          simp [h1, hlt, hnb, h4]
        · have h4f : gpio_is_valid (cs_pin bus) = false := by
            cases hv : gpio_is_valid (cs_pin bus)
            · rfl
            · exact absurd hv h4
          have h4' : (!(gpio_is_valid (cs_pin bus))) = true := by
            rw [h4f]; decide
          rw [if_pos h4']
          simp [h1, hlt, hnb, h4f]
      · rw [if_neg h3]
        simp [h1, hlt, hnb, h3]

/-- C4 witness: bus 0 of 1 with a valid dedicated CS pin accepts the plain
GPIO designator 5. -/
theorem C4_init_cs_result_witness :
    spi_init_cs 1 (fun _ => 7) 0 5 = SpiInitResult.ok :=
  (C4_init_cs_result 1 (fun _ => 7) 0 5 (by decide)).2.2.mpr
    ⟨by decide, by decide, by decide⟩

/-- Lock events on one bus: `mutex_lock` in `spi_acquire` and `mutex_unlock`
in `spi_release`, tagged by the calling context. -/
inductive BusEv where
  | acq (t : Nat)
  | rel (t : Nat)
  deriving DecidableEq, Repr

/-- Modelled from the spec: semantics of the per-bus mutex (the mutex
implementation is not in src/).  The state is the current holder (`none` =
Idle); an acquire completes only from Idle, a release only by the holder;
`none` at the outer layer marks a sequence that cannot complete. -/
def busStep (st : Option (Option Nat)) (e : BusEv) : Option (Option Nat) :=
  match st, e with
  | none, _ => none
  | some none, BusEv.acq t => some (some t)
  | some none, BusEv.rel _ => none
  | some (some _), BusEv.acq _ => none
  | some (some h), BusEv.rel u => if u = h then some none else none

/-- Run a sequence of completed acquire/release events from the Idle bus. -/
def busRun (evs : List BusEv) : Option (Option Nat) :=
  evs.foldl busStep (some none)

/-- C9: while a context holds the bus, no second acquire can complete — it
proceeds only after the holder's release — and the holder's release is the
only event that returns the bus to Idle. -/
theorem C9_mutual_exclusion (evs : List BusEv) (t : Nat)
    (h : busRun evs = some (some t)) :
    (∀ u, busRun (evs ++ [BusEv.acq u]) = none) ∧
    (∀ e, busRun (evs ++ [e]) = some none → e = BusEv.rel t) := by
  have happ : ∀ e, busRun (evs ++ [e]) = busStep (busRun evs) e := by
    intro e
    unfold busRun
    rw [List.foldl_append]
    rfl
  constructor
  · intro u
    rw [happ, h]
    rfl
  · intro e he
    rw [happ, h] at he
    cases e with
    | acq u => exact absurd he (by simp [busStep])
    | rel u =>
      simp only [busStep] at he
      by_cases hu : u = t
      · rw [hu]
      · rw [if_neg hu] at he
        exact absurd he (by simp)

/-- C9 witness: after context 0 acquires the idle bus, a second acquire by
context 1 cannot complete. -/
theorem C9_mutual_exclusion_witness :
    busRun ([BusEv.acq 0] ++ [BusEv.acq 1]) = none :=
  (C9_mutual_exclusion [BusEv.acq 0] 0 (by decide)).1 1
